import Mathlib

/-!
Verification of the BOM Analyzer sourcing decision engine (`app.py`).

The development shallowly embeds the pure core of the application:

* `get_optimal_cost`   — the price-break / buy-up cost optimizer;
* `total_qty_needed`   — the per-part quantity formula of `analyze_single_part`;
* `calculate_risk_score` — the five-factor risk model;
* `calculate_strategies` — the four-strategy selection engine.

Python floats are modelled by exact rationals (`Rat`), with `Option` used
for the NaN / infinity sentinels (`np.nan`, `np.inf`): `none` stands for the
sentinel, `some x` for an ordinary numeric value.  Python `int(x)` is
truncation toward zero (`pyInt`), and Python `round(x, 1)` is decimal
rounding with ties to even (`roundHalfEven`).
-/

set_option maxRecDepth 100000

namespace BOM

/-- Python `int(x)` on a float: truncation toward zero. -/
def pyInt (q : Rat) : Int := if 0 ≤ q then ⌊q⌋ else ⌈q⌉

/-- Round to the nearest integer, ties to even — the rounding mode of Python
`round`. -/
def roundHalfEven (q : Rat) : Int :=
  if q - ⌊q⌋ < 1/2 then ⌊q⌋
  else if q - ⌊q⌋ > 1/2 then ⌊q⌋ + 1
  else if ⌊q⌋ % 2 = 0 then ⌊q⌋ else ⌊q⌋ + 1

/-- Python `round(x, 1)`: one decimal digit, ties to even. -/
def round1 (q : Rat) : Rat := (roundHalfEven (10 * q) : Rat) / 10

/-- Test whether the first character list starts the second one. -/
def beginsWith : List Char → List Char → Bool
  | [], _ => true
  | _ :: _, [] => false
  | a :: as, b :: bs => a == b && beginsWith as bs

/-- Test whether the first character list occurs contiguously inside the
second one. -/
def hasSub (needle : List Char) : List Char → Bool
  | [] => needle.isEmpty
  | b :: bs => beginsWith needle (b :: bs) || hasSub needle bs

/-- Case-sensitive substring test, the model of the Python `in` operator on
strings. -/
def strContains (hay needle : String) : Bool :=
  hasSub needle.toList hay.toList

/-- Comparison `a < b` under IEEE NaN semantics: any comparison with NaN
(`none`) is false. -/
def nanLt : Option Rat → Option Rat → Bool
  | some a, some b => a < b
  | _, _ => false

/-- Multiplication by a constant under NaN semantics: NaN propagates. -/
def nanMul (c : Rat) : Option Rat → Option Rat
  | some a => some (c * a)
  | none => none

/-! ### Cost optimizer (`get_optimal_cost`, app.py lines 93–159) -/

/-- A raw price break as fed to `get_optimal_cost`: an integer quantity and a
price that may be undefined (`safe_float` returning NaN). -/
structure RawBreak where
  qty : Int
  price : Option Rat
deriving Repr, DecidableEq

/-- A validated price break: positive integer quantity, defined non-negative
price. -/
structure PB where
  qty : Int
  price : Rat
deriving Repr, DecidableEq

/-- The validation comprehension of `get_optimal_cost`: keep breaks with
integer quantity > 0 and a defined price ≥ 0. -/
def validatePB (l : List RawBreak) : List PB :=
  l.filterMap fun pb =>
    match pb.price with
    | none => none
    | some p => if 0 < pb.qty ∧ 0 ≤ p then some ⟨pb.qty, p⟩ else none

/-- Ordering of price breaks by quantity, used by the `sorted(...)` call. -/
def pbLe (a b : PB) : Prop := a.qty ≤ b.qty

instance : DecidableRel pbLe := fun a b => inferInstanceAs (Decidable (a.qty ≤ b.qty))

instance : IsTotal PB pbLe := ⟨fun a b => Int.le_total a.qty b.qty⟩

instance : IsTrans PB pbLe := ⟨fun _ _ _ h1 h2 => le_trans h1 h2⟩

/-- Python `sorted(valid_breaks, key=lambda x: x['qty'])`: a stable sort by
ascending quantity. -/
def sortPB (l : List PB) : List PB := List.insertionSort pbLe l

/-- The applicable-break loop: the last break whose quantity is ≤ `base`,
scanning in order and stopping at the first break above `base`. -/
def lastLE (base : Int) : List PB → Option PB
  | [] => none
  | pb :: rest =>
    if pb.qty ≤ base then
      match lastLE base rest with
      | some pb2 => some pb2
      | none => some pb
    else none

/-- Running state of the buy-up scan: best total cost, best unit price,
actual order quantity, and the notes string. -/
structure ScanSt where
  best : Rat
  unit : Rat
  actual : Int
  note : String
deriving Repr, DecidableEq

/-- One iteration of the buy-up loop of `get_optimal_cost`. -/
def buyUpStep (base : Int) (thr : Rat) (s : ScanSt) (pb : PB) : ScanSt :=
  if base ≤ pb.qty then
    let tc : Rat := (pb.qty : Rat) * pb.price
    if tc < s.best * (1 - thr / 100) then
      ⟨tc, pb.price, pb.qty,
        "Price break @ " ++ toString pb.qty ++ " lower total cost. "⟩
    else if s.actual < pb.qty ∧ tc ≤ s.best * (1 + thr / 100) then
      ⟨tc, pb.price, pb.qty,
        "Bought up to " ++ toString pb.qty ++ " for similar total cost. "⟩
    else s
  else s

/-- Result quadruple of `get_optimal_cost`; `none` models the `np.nan`
sentinels of the failure branches. -/
structure CostResult where
  unitPrice : Option Rat
  totalCost : Option Rat
  orderQty : Rat
  note : String
deriving Repr, DecidableEq

/-- Base-price selection and buy-up scan of `get_optimal_cost`, applied to a
non-empty sorted break list with head `first`. -/
def gocScan (base0 : Int) (thr : Rat) (first : PB) (breaks : List PB) : ScanSt :=
  match lastLE base0 breaks with
  | some apb =>
    breaks.foldl (buyUpStep base0 thr) ⟨(base0 : Rat) * apb.price, apb.price, base0, ""⟩
  | none =>
    let b := max base0 first.qty
    breaks.foldl (buyUpStep b thr)
      ⟨(b : Rat) * first.price, first.price, b,
        "MOQ adjusted to first break (" ++ toString b ++ "). "⟩

/-- Model of `get_optimal_cost(qty_needed, pricing_breaks, min_order_qty,
buy_up_threshold_pct)` (app.py lines 93–159).  Returns
`(unit_price, total_cost, actual_order_qty, notes)`. -/
def get_optimal_cost (qtyNeeded : Rat) (pricingBreaks : List RawBreak)
    (minOrderQty : Rat) (buyUpThresholdPct : Rat) : CostResult :=
  if qtyNeeded ≤ 0 then ⟨none, none, qtyNeeded, "Invalid Qty Needed"⟩
  else
    match sortPB (validatePB pricingBreaks) with
    | [] => ⟨none, none, qtyNeeded, "No Valid Price Breaks"⟩
    | first :: rest =>
      let moq : Int := max 1 (pyInt minOrderQty)
      let base0 : Int := max (pyInt qtyNeeded) moq
      let s := gocScan base0 buyUpThresholdPct first (first :: rest)
      ⟨some s.unit, some s.best, (s.actual : Rat), s.note.trim⟩

/-- The quantity formula of `analyze_single_part` (app.py line 403):
`total_qty_needed = int(bom_qty_per_unit * total_units)`. -/
def total_qty_needed (qtyPerUnit : Rat) (totalUnits : Int) : Int :=
  pyInt (qtyPerUnit * (totalUnits : Rat))

/-! ### Risk scorer (`calculate_risk_score`, app.py lines 162–207) -/

/-- The `GEO_RISK_TIERS` table (app.py lines 45–50), in its Python insertion
order, which is also its iteration order. -/
def GEO_RISK_TIERS : List (String × Nat) :=
  [("China", 7), ("Russia", 9), ("Taiwan", 5), ("Malaysia", 4), ("Vietnam", 4),
   ("India", 5), ("Philippines", 4), ("Thailand", 4), ("South Korea", 3),
   ("USA", 1), ("United States", 1), ("Mexico", 2), ("Canada", 1), ("Japan", 1),
   ("Germany", 1), ("France", 1), ("UK", 1), ("Ireland", 1), ("Switzerland", 1),
   ("EU", 1), ("Unknown", 4), ("N/A", 4), ("_DEFAULT_", 4)]

/-- Geographic factor lookup: first tier entry whose lowercased name is a
substring of the stripped lowercased country string; default 4. -/
def geoScore (coo : String) : Nat :=
  match GEO_RISK_TIERS.find? (fun kv => strContains coo.trim.toLower kv.1.toLower) with
  | some kv => kv.2
  | none => 4

/-- Model of `calculate_risk_score` (app.py lines 162–207).  Quantities and
the lead time are NaN-able floats (`none` = NaN / infinity); the result is
the overall score together with the factor map in insertion order. -/
def calculate_risk_score (sourcingCount : Int) (stockAvailable qtyNeeded : Option Rat)
    (leadTimeDays : Option Rat) (lifecycleNotes coo : String) :
    Rat × List (String × Nat) :=
  let sourcing : Nat :=
    if sourcingCount = 0 then 10 else if sourcingCount = 1 then 7
    else if sourcingCount = 2 then 4 else 0
  let stock : Nat :=
    if nanLt stockAvailable qtyNeeded then 8
    else if nanLt stockAvailable (nanMul (3/2) qtyNeeded) then 4 else 0
  let lead : Nat :=
    match leadTimeDays with
    | none => 9
    | some lt => if lt = 0 then 0 else if lt > 90 then 7 else if lt > 45 then 4 else 1
  let lc := lifecycleNotes.toUpper
  let lifecycle : Nat := if strContains lc "EOL" || strContains lc "DISC" then 10 else 0
  let geo := geoScore coo
  let factors := [("Sourcing", sourcing), ("Stock", stock), ("LeadTime", lead),
                  ("Lifecycle", lifecycle), ("Geographic", geo)]
  let overall : Rat := (sourcing : Rat) * (3/10) + (stock : Rat) * (3/20)
    + (lead : Rat) * (3/20) + (lifecycle : Rat) * (3/10) + (geo : Rat) * (1/10)
  (round1 (max 0 (min 10 overall)), factors)

/-! ### Strategy engine (`calculate_strategies`, app.py lines 553–641)

Each option dict built by `analyze_single_part` carries the fields the
strategy engine reads: stock, the stored `lead_time` (`none` models the
`np.inf` it stores for an unknown lead time), the optimizer cost (`none`
models `np.nan`), and the lifecycle flags. -/

/-- The slice of an option dict consumed by `calculate_strategies`. -/
structure EOption where
  source : String
  stock : Int
  lead_time : Option Int
  unit_cost : Option Rat
  cost : Option Rat
  actual_order_qty : Rat
  eol : Bool
  discontinued : Bool
deriving Repr, DecidableEq

/-- The slice of a part-result dict consumed by `calculate_strategies`:
`PartNumber`, `QtyNeed`, `_options` and `_valid`. -/
structure PartResult where
  partNumber : String
  qtyNeed : Int
  options : List EOption
  valid : Bool
deriving Repr, DecidableEq

/-- The configuration values read by `calculate_strategies`. -/
structure Config where
  target_lt : Rat
  max_premium : Rat
  cost_weight : Rat
  lead_weight : Rat
deriving Repr, DecidableEq

/-- The local `eff_lt` helper of `calculate_strategies` (app.py line 595):
0 if in stock, else the stored lead time (`none` = infinite). -/
def effLt (qty : Int) (o : EOption) : Option Int :=
  if qty ≤ o.stock then some 0 else o.lead_time

/-- Comparison of infinity-extended lead times (`none` = `np.inf`). -/
def oiLt : Option Int → Option Int → Bool
  | some a, some b => a < b
  | some _, none => true
  | none, _ => false

/-- Python tuple comparison `(eff_lt, cost) < (eff_lt, cost)`. -/
def keyLt : (Option Int × Rat) → (Option Int × Rat) → Bool
  | (a, c), (b, d) => oiLt a b || (a == b && c < d)

/-- Python `min(xs, key=...)`: the first element whose key is minimal, as a
left fold over the remaining elements. -/
def argminBy (lt : α → α → Bool) (a : α) (l : List α) : α :=
  l.foldl (fun b x => if lt x b then x else b) a

/-- Extract the cost of an option; only evaluated on options whose cost is
defined (the members of `valid_opts`). -/
def costKey (o : EOption) : Rat := o.cost.getD 0

/-- Choice of the "Lowest Cost (Strict)" strategy: minimum cost over the
valid options (app.py line 581). -/
def strictSel (v0 : EOption) (vrest : List EOption) : EOption :=
  argminBy (fun a b => costKey a < costKey b) v0 vrest

/-- Choice of the "Lowest Cost (In Stock)" strategy: minimum cost among
in-stock valid options, else the strict choice (app.py lines 589–590). -/
def inStockSel (qty : Int) (v0 : EOption) (vrest : List EOption) : EOption :=
  match (v0 :: vrest).filter (fun o => qty ≤ o.stock) with
  | [] => strictSel v0 vrest
  | i0 :: irest => argminBy (fun a b => costKey a < costKey b) i0 irest

/-- Choice of the "Fastest Lead Time" strategy: minimum by the pair
(effective lead time, cost) (app.py line 596). -/
def fastestSel (qty : Int) (v0 : EOption) (vrest : List EOption) : EOption :=
  argminBy (fun a b => keyLt (effLt qty a, costKey a) (effLt qty b, costKey b)) v0 vrest

/-- The candidate pool of the "Optimized (Cost+LT)" strategy (app.py lines
605–615): effective lead time finite and within target, cost premium over
the strict baseline within `max_premium`. -/
def constrainedPool (cfg : Config) (qty : Int) (baseline : Rat)
    (vopts : List EOption) : List EOption :=
  vopts.filter fun o =>
    match effLt qty o with
    | none => false
    | some d =>
      if (d : Rat) > cfg.target_lt then false
      else
        let prem : Rat := if baseline > 1/1000000000
          then (costKey o - baseline) / baseline * 100 else 0
        if prem > cfg.max_premium then false else true

/-- The effective lead time as a rational, on pool members (all finite). -/
def effVal (qty : Int) (o : EOption) : Rat :=
  match effLt qty o with
  | some d => (d : Rat)
  | none => 0

/-- The min-max-normalized score of a pool member (app.py lines 624–629). -/
def optScore (cfg : Config) (qty : Int) (min_c c_rng min_l l_rng : Rat)
    (o : EOption) : Rat :=
  let nc := (costKey o - min_c) / c_rng
  let nl : Rat :=
    match effLt qty o with
    | some d => ((d : Rat) - min_l) / l_rng
    | none => 1
  let s := cfg.cost_weight * nc + cfg.lead_weight * nl
  let s := if o.eol || o.discontinued then s + 1/2 else s
  if o.stock < qty then s + 1/10 else s

/-- Choice of the "Optimized (Cost+LT)" strategy (app.py lines 603–633):
score minimization over the constrained pool, falling back to the fastest
choice when the pool is empty. -/
def optimizedSel (cfg : Config) (qty : Int) (fastest : EOption) (baseline : Rat)
    (vopts : List EOption) : EOption :=
  match constrainedPool cfg qty baseline vopts with
  | [] => fastest
  | c0 :: crest =>
    let min_c := (crest.map costKey).foldl min (costKey c0)
    let max_c := (crest.map costKey).foldl max (costKey c0)
    let min_l := (crest.map (effVal qty)).foldl min (effVal qty c0)
    let max_l := (crest.map (effVal qty)).foldl max (effVal qty c0)
    let c_rng := max (max_c - min_c) (1/1000000000)
    let l_rng := max (max_l - min_l) (1/1000000000)
    argminBy (fun a b =>
      optScore cfg qty min_c c_rng min_l l_rng a <
      optScore cfg qty min_c c_rng min_l l_rng b) c0 crest

/-- The four options chosen for one part, or `none` when the part is skipped
(`_valid` false or no option with a defined cost).  Order of the components:
strict, in-stock, fastest, optimized. -/
def partChoice (cfg : Config) (p : PartResult) :
    Option (EOption × EOption × EOption × EOption) :=
  if p.valid = false then none
  else
    match p.options.filter (fun o => o.cost.isSome) with
    | [] => none
    | v0 :: vrest =>
      let best := strictSel v0 vrest
      let fastest := fastestSel p.qtyNeed v0 vrest
      some (best, inStockSel p.qtyNeed v0 vrest, fastest,
        optimizedSel cfg p.qtyNeed fastest (costKey best) (v0 :: vrest))

/-- Accumulator of one strategy: running total cost, running max lead time,
and the part map, modelled as an insertion-ordered association list. -/
structure StratAcc where
  total_cost : Rat
  max_lt : Int
  parts : List (String × EOption)
deriving Repr, DecidableEq

/-- The four strategy accumulators. -/
structure Strategies where
  strict : StratAcc
  inStock : StratAcc
  fastest : StratAcc
  optimized : StratAcc
deriving Repr, DecidableEq

/-- Python dict assignment `parts[pn] = option`: overwrite in place or append. -/
def upsert (k : String) (v : EOption) : List (String × EOption) → List (String × EOption)
  | [] => [(k, v)]
  | kv :: rest => if kv.1 = k then (k, v) :: rest else kv :: upsert k v rest

/-- Record a chosen option in one strategy accumulator; `ltUpd` is the lead
time fed to the max-lead-time update (`none` when infinite, or for the
In-Stock strategy, which never updates its max). -/
def addChoice (acc : StratAcc) (pn : String) (o : EOption) (ltUpd : Option Int) : StratAcc :=
  { total_cost := acc.total_cost + costKey o
    max_lt := match ltUpd with
              | some d => max acc.max_lt d
              | none => acc.max_lt
    parts := upsert pn o acc.parts }

/-- The body of the per-part loop of `calculate_strategies` (app.py lines
572–639). -/
def processPart (cfg : Config) (S : Strategies) (part : PartResult) : Strategies :=
  match partChoice cfg part with
  | none => S
  | some (best, chosen, fastest, opt) =>
    { strict := addChoice S.strict part.partNumber best best.lead_time
      inStock := addChoice S.inStock part.partNumber chosen none
      fastest := addChoice S.fastest part.partNumber fastest (effLt part.qtyNeed fastest)
      optimized := addChoice S.optimized part.partNumber opt (effLt part.qtyNeed opt) }

/-- Model of `calculate_strategies(part_results, config)`. -/
def calculate_strategies (cfg : Config) (parts : List PartResult) : Strategies :=
  parts.foldl (processPart cfg) ⟨⟨0, 0, []⟩, ⟨0, 0, []⟩, ⟨0, 0, []⟩, ⟨0, 0, []⟩⟩

/-- Membership of a part number in a strategy part map. -/
def inMap (pn : String) (m : List (String × EOption)) : Bool :=
  m.any (fun kv => kv.1 == pn)

/-! ## Helper lemmas -/

theorem pyInt_mono {q1 q2 : Rat} (h : q1 ≤ q2) : pyInt q1 ≤ pyInt q2 := by
  unfold pyInt
  rcases le_or_lt 0 q1 with h1 | h1 <;> rcases le_or_lt 0 q2 with h2 | h2
  · rw [if_pos h1, if_pos h2]; exact Int.floor_le_floor h
  · exact absurd (h1.trans h) (not_le.mpr h2)
  · rw [if_neg (not_le.mpr h1), if_pos h2]
    calc ⌈q1⌉ ≤ ⌈(0 : Rat)⌉ := Int.ceil_le_ceil h1.le
    _ = 0 := by simp
    _ ≤ ⌊q2⌋ := Int.floor_nonneg.mpr h2
  · rw [if_neg (not_le.mpr h1), if_neg (not_le.mpr h2)]
    exact Int.ceil_le_ceil h

theorem pyInt_intCast (n : Int) : pyInt (n : Rat) = n := by
  unfold pyInt
  rcases le_or_lt 0 (n : Rat) with h | h
  · rw [if_pos h, Int.floor_intCast]
  · rw [if_neg (not_le.mpr h), Int.ceil_intCast]

theorem pyInt_le_int {q : Rat} {n : Int} (h : q ≤ (n : Rat)) : pyInt q ≤ n := by
  have := pyInt_mono h
  rwa [pyInt_intCast] at this

theorem roundHalfEven_nonneg {q : Rat} (h : 0 ≤ q) : 0 ≤ roundHalfEven q := by
  have hf : 0 ≤ ⌊q⌋ := Int.floor_nonneg.mpr h
  unfold roundHalfEven
  split
  · exact hf
  · split
    · omega
    · split
      · exact hf
      · omega

theorem roundHalfEven_le_int {q : Rat} {n : Int} (h : q ≤ (n : Rat)) :
    roundHalfEven q ≤ n := by
  have hf : ⌊q⌋ ≤ n := by
    have := Int.floor_le_floor h
    rwa [Int.floor_intCast] at this
  have hf1 : ¬(q - ⌊q⌋ < 1/2) → ⌊q⌋ + 1 ≤ n := by
    intro hge
    have h2 : (1 : Rat)/2 ≤ q - ⌊q⌋ := not_lt.mp hge
    have h3 : (⌊q⌋ : Rat) + 1/2 ≤ q := by linarith
    have h4 : (⌊q⌋ : Rat) < n := by linarith
    have h5 : ⌊q⌋ < n := by exact_mod_cast h4
    omega
  unfold roundHalfEven
  split
  · exact hf
  · next hnot =>
    split
    · next => exact hf1 hnot
    · split
      · exact hf
      · exact hf1 hnot

theorem round1_clamp_bounds (x : Rat) :
    0 ≤ round1 (max 0 (min 10 x)) ∧ round1 (max 0 (min 10 x)) ≤ 10 := by
  set y := max 0 (min 10 x) with hy
  have h0 : 0 ≤ y := le_max_left _ _
  have h10 : y ≤ 10 := by
    rw [hy]
    refine max_le (by norm_num) ?_
    exact min_le_left _ _
  have hr0 : (0 : Int) ≤ roundHalfEven (10 * y) :=
    roundHalfEven_nonneg (by positivity)
  have hr100 : roundHalfEven (10 * y) ≤ (100 : Int) := by
    refine roundHalfEven_le_int ?_
    push_cast
    linarith
  constructor
  · unfold round1
    positivity
  · unfold round1
    rw [div_le_iff₀ (by norm_num)]
    calc (roundHalfEven (10 * y) : Rat) ≤ (100 : Int) := by exact_mod_cast hr100
    _ = 10 * 10 := by norm_num

theorem buyUpStep_actual_ge {base : Int} {thr : Rat} {s : ScanSt} {pb : PB}
    (h : base ≤ s.actual) : base ≤ (buyUpStep base thr s pb).actual := by
  unfold buyUpStep
  split
  · next hg =>
    dsimp only
    split
    · exact hg
    · split
      · exact hg
      · exact h
  · exact h

theorem foldl_buyUpStep_actual_ge (base : Int) (thr : Rat) :
    ∀ (L : List PB) (s : ScanSt), base ≤ s.actual →
      base ≤ (L.foldl (buyUpStep base thr) s).actual := by
  intro L
  induction L with
  | nil => intro s h; exact h
  | cons pb rest ih =>
    intro s h
    exact ih _ (buyUpStep_actual_ge h)

theorem gocScan_actual_ge (base0 : Int) (thr : Rat) (first : PB) (breaks : List PB) :
    base0 ≤ (gocScan base0 thr first breaks).actual := by
  unfold gocScan
  cases h : lastLE base0 breaks with
  | some apb => exact foldl_buyUpStep_actual_ge base0 thr breaks _ le_rfl
  | none =>
    refine le_trans (le_max_left base0 first.qty) ?_
    exact foldl_buyUpStep_actual_ge _ thr breaks _ le_rfl

theorem sortPB_eq_nil_iff (l : List PB) : sortPB l = [] ↔ l = [] := by
  constructor
  · intro h
    have := List.length_insertionSort pbLe l
    rw [show List.insertionSort pbLe l = sortPB l from rfl, h] at this
    exact List.length_eq_zero.mp this.symm
  · intro h; rw [h]; rfl

/-! ## Claims about the cost optimizer -/

/-- C1, counterexample.  With `qtyNeeded = 3/2`, a single break `{1, $10}`
and `minOrderQty = 1`, the optimizer returns order quantity 1, which is
strictly below `max(qtyNeeded, minOrderQty) = 3/2`: the base order quantity
truncates a fractional `qtyNeeded` downward instead of rounding up. -/
theorem cost_order_qty_not_ge_fractional_need :
    (get_optimal_cost (3/2) [⟨1, some 10⟩] 1 1).orderQty < max (3/2 : Rat) 1 := by
  with_unfolding_all decide

/-- C1, amended.  For every valid call (positive `qtyNeeded`, at least one
valid price break), the returned order quantity is at least
`max(int(qtyNeeded), max(1, int(minOrderQty)))`, where `int` truncates
toward zero: the base order quantity truncates `qtyNeeded` to whole units
(rounding it down, not up, for fractional values). -/
theorem cost_order_qty_ge_truncated_base (q : Rat) (l : List RawBreak) (m t : Rat)
    (hq : 0 < q) (hnb : validatePB l ≠ []) :
    ((max (pyInt q) (max 1 (pyInt m)) : Int) : Rat) ≤ (get_optimal_cost q l m t).orderQty := by
  unfold get_optimal_cost
  rw [if_neg (not_le.mpr hq)]
  cases hs : sortPB (validatePB l) with
  | nil => exact absurd ((sortPB_eq_nil_iff _).mp hs) hnb
  | cons first rest =>
    show ((max (pyInt q) (max 1 (pyInt m)) : Int) : Rat) ≤
      ((gocScan (max (pyInt q) (max 1 (pyInt m))) t first (first :: rest)).actual : Rat)
    exact_mod_cast gocScan_actual_ge _ t first (first :: rest)

/-- C1, witness: the amended bound evaluated at `qtyNeeded = 3/2`,
one break `{1, $10}`, `minOrderQty = 1`, threshold 1. -/
theorem cost_order_qty_ge_truncated_base_witness :
    (0 : Rat) < 3/2 ∧ validatePB [⟨1, some 10⟩] ≠ [] ∧
    ((max (pyInt (3/2)) (max 1 (pyInt 1)) : Int) : Rat) ≤
      (get_optimal_cost (3/2) [⟨1, some 10⟩] 1 1).orderQty :=
  ⟨by norm_num, by with_unfolding_all decide,
    cost_order_qty_ge_truncated_base (3/2) [⟨1, some 10⟩] 1 1 (by norm_num)
      (by with_unfolding_all decide)⟩

/-- C2, counterexample.  With `qtyPerUnit = 3/2` and `totalUnits = 1` the
code computes `int(1.5) = 1`, while rounding to the nearest whole unit
gives 2. -/
theorem qty_needed_not_round_nearest :
    total_qty_needed (3/2) 1 = 1 ∧ roundHalfEven ((3/2 : Rat) * ((1 : Int) : Rat)) = 2 ∧
      (1 : Int) ≠ 2 := by
  refine ⟨by with_unfolding_all decide, by with_unfolding_all decide, by decide⟩

/-- C2, amended.  The total quantity needed is `int(qtyPerUnit × totalUnits)`,
truncation toward zero; for the non-negative inputs of a BOM line this is
the floor of the product (rounding down), not the nearest whole unit. -/
theorem qty_needed_eq_floor (q : Rat) (u : Int) (hq : 0 ≤ q) (hu : 0 ≤ u) :
    total_qty_needed q u = ⌊q * (u : Rat)⌋ := by
  unfold total_qty_needed pyInt
  rw [if_pos (mul_nonneg hq (by exact_mod_cast hu))]

/-- C2, witness: the floor characterization at `qtyPerUnit = 3/2`,
`totalUnits = 1`. -/
theorem qty_needed_eq_floor_witness :
    (0 : Rat) ≤ 3/2 ∧ (0 : Int) ≤ 1 ∧ total_qty_needed (3/2) 1 = ⌊(3/2 : Rat) * ((1 : Int) : Rat)⌋ :=
  ⟨by norm_num, by decide, qty_needed_eq_floor (3/2) 1 (by norm_num) (by decide)⟩

/-- C3.  On breaks `[{1,$10},{100,$9},{1000,$5}]` with `qtyNeeded = 50`,
any `minOrderQty ≤ 50` and `buyUpThresholdPct = 1`, the optimizer returns
unit price 10, total cost 500 and order quantity 50: neither the 100-unit
break (total 900) nor the 1000-unit break (total 5000) qualifies under
either buy-up rule against the 500 base total. -/
theorem buyup_example_keeps_base_break (m : Rat) (hm : m ≤ 50) :
    (get_optimal_cost 50 [⟨1, some 10⟩, ⟨100, some 9⟩, ⟨1000, some 5⟩] m 1).unitPrice = some 10 ∧
    (get_optimal_cost 50 [⟨1, some 10⟩, ⟨100, some 9⟩, ⟨1000, some 5⟩] m 1).totalCost = some 500 ∧
    (get_optimal_cost 50 [⟨1, some 10⟩, ⟨100, some 9⟩, ⟨1000, some 5⟩] m 1).orderQty = 50 := by
  have hmoq : max 1 (pyInt m) ≤ 50 := by
    have h1 : pyInt m ≤ 50 := pyInt_le_int (by exact_mod_cast hm)
    omega
  have hbase : max (pyInt (50 : Rat)) (max 1 (pyInt m)) = 50 := by
    rw [show (50 : Rat) = ((50 : Int) : Rat) from by norm_num, pyInt_intCast]
    omega
  have hsort : sortPB (validatePB [⟨1, some 10⟩, ⟨100, some 9⟩, ⟨1000, some 5⟩]) =
      [⟨1, 10⟩, ⟨100, 9⟩, ⟨1000, 5⟩] := by with_unfolding_all decide
  have hscan : gocScan 50 1 ⟨1, 10⟩ [⟨1, 10⟩, ⟨100, 9⟩, ⟨1000, 5⟩] =
      ⟨500, 10, 50, ""⟩ := by with_unfolding_all decide
  unfold get_optimal_cost
  rw [if_neg (by norm_num), hsort]
  dsimp only
  rw [hbase, hscan]
  norm_num

/-- C3, witness: the buy-up example evaluated at `minOrderQty = 1`. -/
theorem buyup_example_keeps_base_break_witness :
    (1 : Rat) ≤ 50 ∧
    (get_optimal_cost 50 [⟨1, some 10⟩, ⟨100, some 9⟩, ⟨1000, some 5⟩] 1 1).unitPrice = some 10 ∧
    (get_optimal_cost 50 [⟨1, some 10⟩, ⟨100, some 9⟩, ⟨1000, some 5⟩] 1 1).totalCost = some 500 ∧
    (get_optimal_cost 50 [⟨1, some 10⟩, ⟨100, some 9⟩, ⟨1000, some 5⟩] 1 1).orderQty = 50 :=
  ⟨by norm_num, buyup_example_keeps_base_break 1 (by norm_num)⟩

/-! ## Claims about the risk scorer -/

/-- C4, counterexample.  On the claimed inputs the five factors are
10, 8, 9, 10, 7 as stated, and the weighted sum is 9.25, but the overall
score evaluates to 9.2, not the claimed 9.3: Python `round` rounds the
tie 9.25 to the even digit. -/
theorem risk_example_score_not_9_3 :
    calculate_risk_score 0 (some 0) (some 10) none "EOL" "China" =
      (46/5, [("Sourcing", 10), ("Stock", 8), ("LeadTime", 9),
              ("Lifecycle", 10), ("Geographic", 7)]) ∧
    ¬((calculate_risk_score 0 (some 0) (some 10) none "EOL" "China").1 = 93/10) := by
  constructor
  · with_unfolding_all decide
  · with_unfolding_all decide

/-- C4, amended.  On sourcingCount 0, stock 0, qtyNeeded 10, undefined lead
time, notes "EOL", COO "China", the factors are Sourcing 10, Stock 8,
LeadTime 9, Lifecycle 10, Geographic 7; the weighted sum is 9.25, and the
overall score is 9.25 rounded to one decimal with ties to even, namely 9.2. -/
theorem risk_example_evaluates :
    calculate_risk_score 0 (some 0) (some 10) none "EOL" "China" =
      (92/10, [("Sourcing", 10), ("Stock", 8), ("LeadTime", 9),
               ("Lifecycle", 10), ("Geographic", 7)]) ∧
    (10 : Rat) * (3/10) + (8 : Rat) * (3/20) + (9 : Rat) * (3/20)
      + (10 : Rat) * (3/10) + (7 : Rat) * (1/10) = 37/4 ∧
    round1 (37/4) = 92/10 := by
  refine ⟨by with_unfolding_all decide, by norm_num, by with_unfolding_all decide⟩

/-- C5.  The risk scorer is total: for every combination of inputs —
including NaN stock and quantity, NaN or undefined lead time, and an empty
country string — it returns a score in [0, 10] and a factor map whose keys
are exactly Sourcing, Stock, LeadTime, Lifecycle, Geographic. -/
theorem risk_score_total_and_bounded (sc : Int) (sa qn lt : Option Rat)
    (notes coo : String) :
    0 ≤ (calculate_risk_score sc sa qn lt notes coo).1 ∧
    (calculate_risk_score sc sa qn lt notes coo).1 ≤ 10 ∧
    (calculate_risk_score sc sa qn lt notes coo).2.map Prod.fst =
      ["Sourcing", "Stock", "LeadTime", "Lifecycle", "Geographic"] := by
  refine ⟨?_, ?_, rfl⟩
  · exact (round1_clamp_bounds _).1
  · exact (round1_clamp_bounds _).2

/-! ## Strategy engine lemmas -/

theorem partChoice_eq_none {cfg : Config} {p : PartResult}
    (h : p.valid = false ∨ p.options.filter (fun o => o.cost.isSome) = []) :
    partChoice cfg p = none := by
  unfold partChoice
  rcases h with h | h
  · rw [if_pos h]
  · by_cases hv : p.valid = false
    · rw [if_pos hv]
    · rw [if_neg hv, h]

theorem partChoice_eq_some {cfg : Config} {p : PartResult} {v0 : EOption}
    {vrest : List EOption} (hv : p.valid = true)
    (hf : p.options.filter (fun o => o.cost.isSome) = v0 :: vrest) :
    partChoice cfg p = some (strictSel v0 vrest, inStockSel p.qtyNeed v0 vrest,
      fastestSel p.qtyNeed v0 vrest,
      optimizedSel cfg p.qtyNeed (fastestSel p.qtyNeed v0 vrest)
        (costKey (strictSel v0 vrest)) (v0 :: vrest)) := by
  unfold partChoice
  rw [if_neg (by simp [hv]), hf]

theorem processPart_skip {cfg : Config} {S : Strategies} {p : PartResult}
    (h : partChoice cfg p = none) : processPart cfg S p = S := by
  unfold processPart
  rw [h]

theorem inMap_upsert (pn k : String) (v : EOption) :
    ∀ m : List (String × EOption), inMap pn (upsert k v m) = ((k == pn) || inMap pn m) := by
  intro m
  induction m with
  | nil => simp [upsert, inMap]
  | cons kv rest ih =>
    unfold upsert
    by_cases h : kv.1 = k
    · rw [if_pos h]
      simp only [inMap, List.any_cons, h]
      cases hk : (k == pn) <;> simp
    · rw [if_neg h]
      simp only [inMap, List.any_cons] at ih ⊢
      rw [ih, Bool.or_left_comm]

/-- C7 helper: a strategy state in which a part number is absent from every
part map. -/
def keysFalse (pn : String) (S : Strategies) : Prop :=
  inMap pn S.strict.parts = false ∧ inMap pn S.inStock.parts = false ∧
  inMap pn S.fastest.parts = false ∧ inMap pn S.optimized.parts = false

theorem keysFalse_foldl {cfg : Config} {pn : String} :
    ∀ (parts : List PartResult) (S : Strategies), keysFalse pn S →
      (∀ q ∈ parts, q.partNumber ≠ pn) →
      keysFalse pn (parts.foldl (processPart cfg) S) := by
  intro parts
  induction parts with
  | nil => intro S hS _; exact hS
  | cons q rest ih =>
    intro S hS hq
    rw [List.foldl_cons]
    refine ih _ ?_ (fun r hr => hq r (List.mem_cons_of_mem _ hr))
    have hqpn : (q.partNumber == pn) = false :=
      beq_eq_false_iff_ne.mpr (hq q (List.mem_cons_self _ _))
    unfold processPart
    cases hc : partChoice cfg q with
    | none => exact hS
    | some c =>
      obtain ⟨hS1, hS2, hS3, hS4⟩ := hS
      refine ⟨?_, ?_, ?_, ?_⟩ <;>
        simp only [addChoice] <;>
        rw [inMap_upsert] <;>
        simp [hqpn, hS1, hS2, hS3, hS4]

/-- C7.  A part with `_valid = false`, or with no option carrying a defined
total cost, is skipped by the strategy engine: removing it from the input
leaves all four strategy summaries unchanged (so it contributes nothing to
any total cost), and — provided no other part shares its part number — its
part number is absent from all four part maps. -/
theorem skipped_part_invariant (cfg : Config) (l1 l2 : List PartResult) (p : PartResult)
    (h : p.valid = false ∨ p.options.filter (fun o => o.cost.isSome) = []) :
    calculate_strategies cfg (l1 ++ p :: l2) = calculate_strategies cfg (l1 ++ l2) ∧
    ((∀ q ∈ l1 ++ l2, q.partNumber ≠ p.partNumber) →
      (inMap p.partNumber (calculate_strategies cfg (l1 ++ p :: l2)).strict.parts = false ∧
       inMap p.partNumber (calculate_strategies cfg (l1 ++ p :: l2)).inStock.parts = false ∧
       inMap p.partNumber (calculate_strategies cfg (l1 ++ p :: l2)).fastest.parts = false ∧
       inMap p.partNumber (calculate_strategies cfg (l1 ++ p :: l2)).optimized.parts = false)) := by
  have heq : calculate_strategies cfg (l1 ++ p :: l2) = calculate_strategies cfg (l1 ++ l2) := by
    unfold calculate_strategies
    rw [List.foldl_append, List.foldl_append, List.foldl_cons,
      processPart_skip (partChoice_eq_none h)]
  refine ⟨heq, fun hothers => ?_⟩
  rw [heq]
  exact keysFalse_foldl (l1 ++ l2) _ ⟨rfl, rfl, rfl, rfl⟩ hothers

/-- C7, witness: a part with no valid options between two kept parts. -/
theorem skipped_part_invariant_witness :
    ((⟨"BAD", 5, [], false⟩ : PartResult).valid = false ∨
      (⟨"BAD", 5, [], false⟩ : PartResult).options.filter (fun o => o.cost.isSome) = []) ∧
    calculate_strategies ⟨56, 15, 1/2, 1/2⟩
        [⟨"P1", 10, [⟨"S", 20, some 3, some 1, some 5, 10, false, false⟩], true⟩,
         ⟨"BAD", 5, [], false⟩] =
      calculate_strategies ⟨56, 15, 1/2, 1/2⟩
        [⟨"P1", 10, [⟨"S", 20, some 3, some 1, some 5, 10, false, false⟩], true⟩] ∧
    inMap "BAD" (calculate_strategies ⟨56, 15, 1/2, 1/2⟩
        [⟨"P1", 10, [⟨"S", 20, some 3, some 1, some 5, 10, false, false⟩], true⟩,
         ⟨"BAD", 5, [], false⟩]).strict.parts = false := by
  have h := skipped_part_invariant ⟨56, 15, 1/2, 1/2⟩
    [⟨"P1", 10, [⟨"S", 20, some 3, some 1, some 5, 10, false, false⟩], true⟩] []
    ⟨"BAD", 5, [], false⟩ (Or.inl rfl)
  refine ⟨Or.inl rfl, h.1, ?_⟩
  exact (h.2 (by intro q hq; simp at hq; rw [hq]; decide)).1

/-- C10 helper: the four part maps of a strategy state answer every key
query identically. -/
def keysAgree (S : Strategies) : Prop :=
  ∀ pn, inMap pn S.strict.parts = inMap pn S.inStock.parts ∧
        inMap pn S.strict.parts = inMap pn S.fastest.parts ∧
        inMap pn S.strict.parts = inMap pn S.optimized.parts

theorem keysAgree_processPart {cfg : Config} {S : Strategies} {p : PartResult}
    (hS : keysAgree S) : keysAgree (processPart cfg S p) := by
  intro pn
  unfold processPart
  cases hc : partChoice cfg p with
  | none => exact hS pn
  | some c =>
    obtain ⟨h1, h2, h3⟩ := hS pn
    refine ⟨?_, ?_, ?_⟩ <;> simp only [addChoice] <;> rw [inMap_upsert, inMap_upsert]
    · rw [h1]
    · rw [h2]
    · rw [h3]

theorem inMap_processPart_true {cfg : Config} {S : Strategies} {p : PartResult}
    {pn : String} (h : inMap pn S.strict.parts = true) :
    inMap pn (processPart cfg S p).strict.parts = true := by
  unfold processPart
  cases hc : partChoice cfg p with
  | none => exact h
  | some c =>
    simp only [addChoice]
    rw [inMap_upsert, h, Bool.or_true]

theorem inMap_foldl_true {cfg : Config} {pn : String} :
    ∀ (parts : List PartResult) (S : Strategies), inMap pn S.strict.parts = true →
      inMap pn (parts.foldl (processPart cfg) S).strict.parts = true := by
  intro parts
  induction parts with
  | nil => intro S h; exact h
  | cons q rest ih =>
    intro S h
    rw [List.foldl_cons]
    exact ih _ (inMap_processPart_true h)

theorem inMap_foldl_of_mem {cfg : Config} {p : PartResult} :
    ∀ (parts : List PartResult) (S : Strategies), p ∈ parts →
      (partChoice cfg p).isSome = true →
      inMap p.partNumber (parts.foldl (processPart cfg) S).strict.parts = true := by
  intro parts
  induction parts with
  | nil => intro S h; exact absurd h (List.not_mem_nil p)
  | cons q rest ih =>
    intro S hmem hsome
    rcases List.mem_cons.mp hmem with heq | hmem2
    · subst heq
      rw [List.foldl_cons]
      refine inMap_foldl_true rest _ ?_
      obtain ⟨c, hc⟩ := Option.isSome_iff_exists.mp hsome
      unfold processPart
      rw [hc]
      simp only [addChoice]
      rw [inMap_upsert]
      simp
    · rw [List.foldl_cons]
      exact ih _ hmem2 hsome

/-- C10.  The four strategies always populate their part maps with exactly
the same key set: a part with `_valid` true and at least one option with a
defined total cost receives an entry in every strategy (In Stock falls back
to the Strict choice, Optimized to the Fastest choice), and skipped parts
appear in none. -/
theorem four_part_maps_same_keys (cfg : Config) (parts : List PartResult) :
    (∀ pn, inMap pn (calculate_strategies cfg parts).strict.parts =
             inMap pn (calculate_strategies cfg parts).inStock.parts ∧
           inMap pn (calculate_strategies cfg parts).strict.parts =
             inMap pn (calculate_strategies cfg parts).fastest.parts ∧
           inMap pn (calculate_strategies cfg parts).strict.parts =
             inMap pn (calculate_strategies cfg parts).optimized.parts) ∧
    (∀ p ∈ parts, p.valid = true →
      p.options.filter (fun o => o.cost.isSome) ≠ [] →
      inMap p.partNumber (calculate_strategies cfg parts).strict.parts = true) := by
  constructor
  · show keysAgree (calculate_strategies cfg parts)
    unfold calculate_strategies
    generalize hS : (⟨⟨0, 0, []⟩, ⟨0, 0, []⟩, ⟨0, 0, []⟩, ⟨0, 0, []⟩⟩ : Strategies) = S0
    have hS0 : keysAgree S0 := by
      rw [← hS]; intro pn; exact ⟨rfl, rfl, rfl⟩
    clear hS
    induction parts generalizing S0 with
    | nil => exact hS0
    | cons q rest ih =>
      rw [List.foldl_cons]
      exact ih _ (keysAgree_processPart hS0)
  · intro p hmem hv hf
    refine inMap_foldl_of_mem parts _ hmem ?_
    cases hfe : p.options.filter (fun o => o.cost.isSome) with
    | nil => exact absurd hfe hf
    | cons v0 vrest => rw [partChoice_eq_some hv hfe]; rfl

/-- C10, witness: a single valid part lands in the strict map (and by the
key agreement, in all four). -/
theorem four_part_maps_same_keys_witness :
    inMap "P1" (calculate_strategies ⟨56, 15, 1/2, 1/2⟩
      [⟨"P1", 10, [⟨"S", 20, some 3, some 1, some 5, 10, false, false⟩], true⟩]).strict.parts
      = true :=
  (four_part_maps_same_keys ⟨56, 15, 1/2, 1/2⟩
      [⟨"P1", 10, [⟨"S", 20, some 3, some 1, some 5, 10, false, false⟩], true⟩]).2
    _ (List.mem_singleton.mpr rfl) rfl (by with_unfolding_all decide)

/-- C8.  When the Optimized candidate pool of a processed part is empty, the
Optimized choice equals the Fastest choice; and the pool is empty in
particular whenever every valid option has an effective lead time that is
infinite or above the target (the premium filter never needs to fire). -/
theorem optimized_empty_pool_falls_back (cfg : Config) (p : PartResult)
    (c : EOption × EOption × EOption × EOption) (hc : partChoice cfg p = some c) :
    (constrainedPool cfg p.qtyNeed (costKey c.1)
        (p.options.filter (fun o => o.cost.isSome)) = [] → c.2.2.2 = c.2.2.1) ∧
    ((∀ o ∈ p.options.filter (fun o => o.cost.isSome),
        ∀ d, effLt p.qtyNeed o = some d → (d : Rat) > cfg.target_lt) →
      constrainedPool cfg p.qtyNeed (costKey c.1)
        (p.options.filter (fun o => o.cost.isSome)) = []) := by
  by_cases hv : p.valid = false
  · rw [partChoice_eq_none (Or.inl hv)] at hc
    exact absurd hc (by simp)
  · cases hf : p.options.filter (fun o => o.cost.isSome) with
    | nil =>
      rw [partChoice_eq_none (Or.inr hf)] at hc
      exact absurd hc (by simp)
    | cons v0 vrest =>
      have hv' : p.valid = true := by
        cases hb : p.valid
        · exact absurd hb hv
        · rfl
      rw [partChoice_eq_some hv' hf] at hc
      have hc' := (Option.some_inj.mp hc).symm
      constructor
      · intro hpool
        rw [hc']
        dsimp only
        unfold optimizedSel
        rw [hc'] at hpool
        dsimp only at hpool
        rw [hpool]
      · intro hover
        unfold constrainedPool
        rw [List.filter_eq_nil_iff]
        intro o ho
        have h2 := hover o ho
        cases he : effLt p.qtyNeed o with
        | none => simp [he]
        | some d => simp [he, h2 d he]

/-- C8, witness: one valid option whose lead time 100 exceeds the target 56
with empty stock; the Optimized choice coincides with the Fastest choice. -/
theorem optimized_empty_pool_falls_back_witness :
    partChoice ⟨56, 15, 1/2, 1/2⟩
        ⟨"P1", 10, [⟨"S", 0, some 100, some 1, some 5, 10, false, false⟩], true⟩ =
      some (⟨"S", 0, some 100, some 1, some 5, 10, false, false⟩,
            ⟨"S", 0, some 100, some 1, some 5, 10, false, false⟩,
            ⟨"S", 0, some 100, some 1, some 5, 10, false, false⟩,
            ⟨"S", 0, some 100, some 1, some 5, 10, false, false⟩) ∧
    (⟨"S", 0, some 100, some 1, some 5, 10, false, false⟩ : EOption) =
      ⟨"S", 0, some 100, some 1, some 5, 10, false, false⟩ := by
  have hc : partChoice ⟨56, 15, 1/2, 1/2⟩
      ⟨"P1", 10, [⟨"S", 0, some 100, some 1, some 5, 10, false, false⟩], true⟩ =
      some (⟨"S", 0, some 100, some 1, some 5, 10, false, false⟩,
            ⟨"S", 0, some 100, some 1, some 5, 10, false, false⟩,
            ⟨"S", 0, some 100, some 1, some 5, 10, false, false⟩,
            ⟨"S", 0, some 100, some 1, some 5, 10, false, false⟩) := by
    with_unfolding_all decide
  refine ⟨hc, ?_⟩
  have h := optimized_empty_pool_falls_back ⟨56, 15, 1/2, 1/2⟩
    ⟨"P1", 10, [⟨"S", 0, some 100, some 1, some 5, 10, false, false⟩], true⟩ _ hc
  exact h.1 (h.2 (by with_unfolding_all decide))

/-- C9, counterexample.  A single valid part whose only (hence chosen)
option has finite lead time 10 but zero stock: the In-Stock strategy falls
back to the strict choice, whose lead time 10 is finite, yet the In-Stock
summary reports max lead time 0, not 10 — the code never updates the
In-Stock `max_lt`. -/
theorem instock_max_lt_not_tracked :
    (calculate_strategies ⟨56, 15, 1/2, 1/2⟩
        [⟨"P1", 10, [⟨"S", 0, some 10, some 1, some 5, 5, false, false⟩], true⟩]).inStock.parts
      = [("P1", ⟨"S", 0, some 10, some 1, some 5, 5, false, false⟩)] ∧
    (⟨"S", 0, some 10, some 1, some 5, 5, false, false⟩ : EOption).lead_time = some 10 ∧
    (calculate_strategies ⟨56, 15, 1/2, 1/2⟩
        [⟨"P1", 10, [⟨"S", 0, some 10, some 1, some 5, 5, false, false⟩], true⟩]).inStock.max_lt
      = 0 ∧ (0 : Int) ≠ 10 := by
  refine ⟨?_, rfl, ?_, by decide⟩
  · with_unfolding_all decide
  · with_unfolding_all decide

/-- C9, amended.  Every strategy accumulates as total cost the sum of its
chosen options' total costs; Strict tracks the maximum finite raw lead time
of its chosen options, Fastest and Optimized the maximum finite effective
lead time of theirs, but the In-Stock strategy never updates its max lead
time, which is always 0. -/
theorem strategy_totals_and_max_lead (cfg : Config) (parts : List PartResult) :
    (calculate_strategies cfg parts).inStock.max_lt = 0 ∧
    (calculate_strategies cfg parts).strict.total_cost =
      (parts.filterMap (fun p => (partChoice cfg p).map (fun c => costKey c.1))).sum ∧
    (calculate_strategies cfg parts).inStock.total_cost =
      (parts.filterMap (fun p => (partChoice cfg p).map (fun c => costKey c.2.1))).sum ∧
    (calculate_strategies cfg parts).fastest.total_cost =
      (parts.filterMap (fun p => (partChoice cfg p).map (fun c => costKey c.2.2.1))).sum ∧
    (calculate_strategies cfg parts).optimized.total_cost =
      (parts.filterMap (fun p => (partChoice cfg p).map (fun c => costKey c.2.2.2))).sum ∧
    (calculate_strategies cfg parts).strict.max_lt =
      (parts.filterMap (fun p => (partChoice cfg p).bind (fun c => c.1.lead_time))).foldl max 0 ∧
    (calculate_strategies cfg parts).fastest.max_lt =
      (parts.filterMap (fun p =>
        (partChoice cfg p).bind (fun c => effLt p.qtyNeed c.2.2.1))).foldl max 0 ∧
    (calculate_strategies cfg parts).optimized.max_lt =
      (parts.filterMap (fun p =>
        (partChoice cfg p).bind (fun c => effLt p.qtyNeed c.2.2.2))).foldl max 0 := by
  have main : ∀ (l : List PartResult) (S : Strategies),
      (l.foldl (processPart cfg) S).inStock.max_lt = S.inStock.max_lt ∧
      (l.foldl (processPart cfg) S).strict.total_cost = S.strict.total_cost +
        (l.filterMap (fun p => (partChoice cfg p).map (fun c => costKey c.1))).sum ∧
      (l.foldl (processPart cfg) S).inStock.total_cost = S.inStock.total_cost +
        (l.filterMap (fun p => (partChoice cfg p).map (fun c => costKey c.2.1))).sum ∧
      (l.foldl (processPart cfg) S).fastest.total_cost = S.fastest.total_cost +
        (l.filterMap (fun p => (partChoice cfg p).map (fun c => costKey c.2.2.1))).sum ∧
      (l.foldl (processPart cfg) S).optimized.total_cost = S.optimized.total_cost +
        (l.filterMap (fun p => (partChoice cfg p).map (fun c => costKey c.2.2.2))).sum ∧
      (l.foldl (processPart cfg) S).strict.max_lt =
        (l.filterMap (fun p => (partChoice cfg p).bind (fun c => c.1.lead_time))).foldl
          max S.strict.max_lt ∧
      (l.foldl (processPart cfg) S).fastest.max_lt =
        (l.filterMap (fun p =>
          (partChoice cfg p).bind (fun c => effLt p.qtyNeed c.2.2.1))).foldl
          max S.fastest.max_lt ∧
      (l.foldl (processPart cfg) S).optimized.max_lt =
        (l.filterMap (fun p =>
          (partChoice cfg p).bind (fun c => effLt p.qtyNeed c.2.2.2))).foldl
          max S.optimized.max_lt := by
    intro l
    induction l with
    | nil =>
      intro S
      simp
    | cons q rest ih =>
      intro S
      rw [List.foldl_cons]
      cases hc : partChoice cfg q with
      | none =>
        rw [processPart_skip hc]
        simpa [List.filterMap_cons, hc] using ih S
      | some c =>
        have i := ih (processPart cfg S q)
        have hPP : processPart cfg S q =
            { strict := addChoice S.strict q.partNumber c.1 c.1.lead_time
              inStock := addChoice S.inStock q.partNumber c.2.1 none
              fastest := addChoice S.fastest q.partNumber c.2.2.1 (effLt q.qtyNeed c.2.2.1)
              optimized := addChoice S.optimized q.partNumber c.2.2.2
                (effLt q.qtyNeed c.2.2.2) } := by
          unfold processPart
          rw [hc]
        refine ⟨?_, ?_, ?_, ?_, ?_, ?_, ?_, ?_⟩
        · rw [i.1, hPP]
          simp [addChoice]
        · rw [i.2.1, hPP]
          simp only [addChoice]
          simp [hc]
          ring
        · rw [i.2.2.1, hPP]
          simp only [addChoice]
          simp [hc]
          ring
        · rw [i.2.2.2.1, hPP]
          simp only [addChoice]
          simp [hc]
          ring
        · rw [i.2.2.2.2.1, hPP]
          simp only [addChoice]
          simp [hc]
          ring
        · rw [i.2.2.2.2.2.1, hPP]
          cases hlt : c.1.lead_time with
          | none => simp [addChoice, hc, hlt]
          | some d => simp [addChoice, hc, hlt]
        · rw [i.2.2.2.2.2.2.1, hPP]
          cases hlt : effLt q.qtyNeed c.2.2.1 with
          | none => simp [addChoice, hc, hlt]
          | some d => simp [addChoice, hc, hlt]
        · rw [i.2.2.2.2.2.2.2, hPP]
          cases hlt : effLt q.qtyNeed c.2.2.2 with
          | none => simp [addChoice, hc, hlt]
          | some d => simp [addChoice, hc, hlt]
  have h := main parts ⟨⟨0, 0, []⟩, ⟨0, 0, []⟩, ⟨0, 0, []⟩, ⟨0, 0, []⟩⟩
  obtain ⟨h1, h2, h3, h4, h5, h6, h7, h8⟩ := h
  unfold calculate_strategies
  exact ⟨h1, by rw [h2]; ring, by rw [h3]; ring, by rw [h4]; ring,
    by rw [h5]; ring, h6, h7, h8⟩

/-! ## Monotonicity of the cost optimizer order quantity (C6)

The claim fails when the price-break table carries two breaks with the same
quantity (both survive validation, and Python `sorted` keeps both).  With
distinct break quantities the order quantity is monotone in the demand; the
proof follows the scan: before the merge point — the applicable break `C` of
the larger base — the larger run is inert, and past it the smaller run keeps
both a smaller best total and a smaller order quantity. -/

/-- C6, counterexample.  On the duplicate-quantity table
`[{1,$1},{100,$0.0101},{100,$0.01},{10000,$0.000102}]` with MOQ 1 and a 1%
buy-up threshold, demand 1 buys 10000 units (two buy-up steps chain through
the expensive 100-break), while the larger demand 100 starts at the cheap
100-break, from which the 10000-break is no longer within 1%, and buys only
100 units — the order quantity decreases as demand grows. -/
theorem cost_order_qty_not_monotone :
    (1 : Rat) ≤ 100 ∧
    (get_optimal_cost 100
        [⟨1, some 1⟩, ⟨100, some (101/10000)⟩, ⟨100, some (1/100)⟩,
         ⟨10000, some (102/1000000)⟩] 1 1).orderQty <
      (get_optimal_cost 1
        [⟨1, some 1⟩, ⟨100, some (101/10000)⟩, ⟨100, some (1/100)⟩,
         ⟨10000, some (102/1000000)⟩] 1 1).orderQty := by
  constructor
  · norm_num
  · with_unfolding_all decide

theorem lastLE_cons_eq_none_iff {b : Int} {pb : PB} {rest : List PB} :
    lastLE b (pb :: rest) = none ↔ b < pb.qty := by
  unfold lastLE
  by_cases h : pb.qty ≤ b
  · rw [if_pos h]
    cases lastLE b rest <;> simp <;> omega
  · rw [if_neg h]
    simp
    omega

theorem lastLE_some_spec {b : Int} :
    ∀ {B : List PB} {C : PB}, lastLE b B = some C → C ∈ B ∧ C.qty ≤ b := by
  intro B
  induction B with
  | nil => intro C h; exact absurd h (by simp [lastLE])
  | cons pb rest ih =>
    intro C h
    unfold lastLE at h
    by_cases hle : pb.qty ≤ b
    · rw [if_pos hle] at h
      cases hr : lastLE b rest with
      | some c2 =>
        rw [hr] at h
        have hc : C = c2 := (Option.some_inj.mp h).symm
        subst hc
        exact ⟨List.mem_cons_of_mem _ (ih hr).1, (ih hr).2⟩
      | none =>
        rw [hr] at h
        have hc : C = pb := (Option.some_inj.mp h).symm
        subst hc
        exact ⟨List.mem_cons_self _ _, hle⟩
    · rw [if_neg hle] at h
      exact absurd h (by simp)

theorem lastLE_between {B : List PB} (hB : B.Pairwise (fun a b => a.qty < b.qty)) :
    ∀ {b1 b2 : Int} {C : PB}, lastLE b2 B = some C → C.qty ≤ b1 → b1 ≤ b2 →
      lastLE b1 B = some C := by
  induction B with
  | nil => intro b1 b2 C h; exact absurd h (by simp [lastLE])
  | cons x rest ih =>
    intro b1 b2 C h2 hC1 h12
    have hx2 : x.qty ≤ b2 := by
      by_contra hgt
      rw [lastLE_cons_eq_none_iff.mpr (by omega)] at h2
      exact absurd h2 (by simp)
    unfold lastLE at h2 ⊢
    rw [if_pos hx2] at h2
    cases hr2 : lastLE b2 rest with
    | some c2 =>
      rw [hr2] at h2
      have hc : C = c2 := (Option.some_inj.mp h2).symm
      subst hc
      have hCrest : C ∈ rest := (lastLE_some_spec hr2).1
      have hxC : x.qty < C.qty := (List.pairwise_cons.mp hB).1 C hCrest
      rw [if_pos (by omega)]
      rw [ih (List.pairwise_cons.mp hB).2 hr2 hC1 h12]
    | none =>
      rw [hr2] at h2
      have hc : C = x := (Option.some_inj.mp h2).symm
      subst hc
      rw [if_pos hC1]
      have hr1 : lastLE b1 rest = none := by
        cases rest with
        | nil => rfl
        | cons y ys =>
          have hy2 : b2 < y.qty := lastLE_cons_eq_none_iff.mp hr2
          exact lastLE_cons_eq_none_iff.mpr (by omega)
      rw [hr1]

theorem lastLE_eq_getLast_takeWhile (b : Int) :
    ∀ B : List PB, lastLE b B = (B.takeWhile (fun pb => decide (pb.qty ≤ b))).getLast? := by
  intro B
  induction B with
  | nil => rfl
  | cons pb rest ih =>
    unfold lastLE
    by_cases h : pb.qty ≤ b
    · rw [if_pos h]
      have ht : (pb :: rest).takeWhile (fun x => decide (x.qty ≤ b)) =
          pb :: rest.takeWhile (fun x => decide (x.qty ≤ b)) := by
        simp [List.takeWhile_cons, h]
      rw [ht, ih]
      cases htw : rest.takeWhile (fun x => decide (x.qty ≤ b)) with
      | nil => rfl
      | cons y ys =>
        obtain ⟨z, hz⟩ : ∃ z, (y :: ys).getLast? = some z :=
          ⟨(y :: ys).getLast (by simp), List.getLast?_eq_getLast_of_ne_nil (by simp)⟩
        rw [hz, List.getLast?_cons_cons, hz]
    · rw [if_neg h]
      have ht : (pb :: rest).takeWhile (fun x => decide (x.qty ≤ b)) = [] := by
        simp [List.takeWhile_cons, h]
      rw [ht]
      rfl

theorem pairwise_lt_qty_inj :
    ∀ {B : List PB}, B.Pairwise (fun a b => a.qty < b.qty) →
      ∀ {a b : PB}, a ∈ B → b ∈ B → a.qty = b.qty → a = b := by
  intro B
  induction B with
  | nil => intro _ a b ha; exact absurd ha (List.not_mem_nil a)
  | cons x rest ih =>
    intro h a b ha hb heq
    obtain ⟨hx, hrest⟩ := List.pairwise_cons.mp h
    rcases List.mem_cons.mp ha with rfl | ha' <;> rcases List.mem_cons.mp hb with rfl | hb'
    · rfl
    · exact absurd heq (by have := hx b hb'; omega)
    · exact absurd heq (by have := hx a ha'; omega)
    · exact ih hrest ha' hb' heq

theorem pairwise_lt_le_getLast {P : List PB} {C : PB}
    (hP : P.Pairwise (fun a b => a.qty < b.qty)) (hC : C ∈ P.getLast?) :
    ∀ pb ∈ P, pb.qty ≤ C.qty := by
  have hsplit : P.dropLast ++ [C] = P := List.dropLast_append_getLast? C hC
  intro pb hpb
  rw [← hsplit] at hpb hP
  obtain ⟨_, _, hcross⟩ := List.pairwise_append.mp hP
  rcases List.mem_append.mp hpb with h | h
  · exact (hcross pb h C (List.mem_singleton.mpr rfl)).le
  · rw [List.mem_singleton.mp h]

theorem mem_dropWhile_gt {b2 : Int} :
    ∀ {B : List PB}, B.Pairwise (fun a b => a.qty < b.qty) →
      ∀ pb ∈ B.dropWhile (fun x => decide (x.qty ≤ b2)), b2 < pb.qty := by
  intro B
  induction B with
  | nil => intro _ pb hpb; exact absurd hpb (by simp)
  | cons x rest ih =>
    intro h pb hpb
    obtain ⟨hx, hrest⟩ := List.pairwise_cons.mp h
    by_cases hxle : x.qty ≤ b2
    · rw [List.dropWhile_cons_of_pos (by simpa using hxle)] at hpb
      exact ih hrest pb hpb
    · rw [List.dropWhile_cons_of_neg (by simpa using hxle)] at hpb
      rcases List.mem_cons.mp hpb with rfl | hpb'
      · omega
      · have := hx pb hpb'
        omega

theorem buyUpStep_id_of_lt {base : Int} {t : Rat} {s : ScanSt} {pb : PB}
    (h : pb.qty < base) : buyUpStep base t s pb = s := by
  unfold buyUpStep
  rw [if_neg (by omega)]

theorem foldl_buyUpStep_skip {base : Int} {t : Rat} :
    ∀ {L : List PB} {s : ScanSt}, (∀ pb ∈ L, pb.qty < base) →
      L.foldl (buyUpStep base t) s = s := by
  intro L
  induction L with
  | nil => intro s _; rfl
  | cons pb rest ih =>
    intro s h
    rw [List.foldl_cons, buyUpStep_id_of_lt (h pb (List.mem_cons_self _ _))]
    exact ih (fun x hx => h x (List.mem_cons_of_mem _ hx))

theorem buyUpStep_cases (b : Int) (t : Rat) (s : ScanSt) (pb : PB) :
    ((buyUpStep b t s pb).best = s.best ∧ (buyUpStep b t s pb).actual = s.actual) ∨
    ((buyUpStep b t s pb).best = (pb.qty : Rat) * pb.price ∧
      (buyUpStep b t s pb).actual = pb.qty) := by
  unfold buyUpStep
  split
  · dsimp only
    split
    · right; exact ⟨rfl, rfl⟩
    · split
      · right; exact ⟨rfl, rfl⟩
      · left; exact ⟨rfl, rfl⟩
  · left; exact ⟨rfl, rfl⟩

theorem buyUpStep_id_high_actual {b : Int} {t : Rat} {s : ScanSt} {pb : PB}
    (hact : pb.qty ≤ s.actual) (ht : 0 ≤ t) (h0 : 0 ≤ s.best)
    (hbig : s.best ≤ (pb.qty : Rat) * pb.price) :
    buyUpStep b t s pb = s := by
  have hdiv : (0 : Rat) ≤ t / 100 := by positivity
  unfold buyUpStep
  split
  · dsimp only
    have hnA : ¬((pb.qty : Rat) * pb.price < s.best * (1 - t / 100)) := by
      have h1 : s.best * (1 - t / 100) ≤ s.best :=
        mul_le_of_le_one_right h0 (by linarith)
      exact not_lt.mpr (h1.trans hbig)
    rw [if_neg hnA, if_neg ?hnB]
    case hnB =>
      rintro ⟨hlt, _⟩
      exact absurd hlt (not_lt.mpr hact)
  · rfl

theorem buyUpStep_spec {b : Int} {t : Rat} {s : ScanSt} {pb : PB}
    (hg : b ≤ pb.qty) (ha : s.actual < pb.qty) (h0 : 0 ≤ s.best) (ht : 0 ≤ t) :
    ((pb.qty : Rat) * pb.price ≤ s.best * (1 + t / 100) ∧
      (buyUpStep b t s pb).best = (pb.qty : Rat) * pb.price ∧
      (buyUpStep b t s pb).actual = pb.qty) ∨
    (s.best * (1 + t / 100) < (pb.qty : Rat) * pb.price ∧ buyUpStep b t s pb = s) := by
  have hdiv : (0 : Rat) ≤ t / 100 := by positivity
  have hlohi : s.best * (1 - t / 100) ≤ s.best * (1 + t / 100) :=
    mul_le_mul_of_nonneg_left (by linarith) h0
  rcases le_or_lt ((pb.qty : Rat) * pb.price) (s.best * (1 + t / 100)) with hle | hgt
  · left
    refine ⟨hle, ?_, ?_⟩ <;>
    · unfold buyUpStep
      rw [if_pos hg]
      dsimp only
      by_cases hA : (pb.qty : Rat) * pb.price < s.best * (1 - t / 100)
      · rw [if_pos hA]
      · rw [if_neg hA, if_pos ⟨ha, hle⟩]
  · right
    refine ⟨hgt, ?_⟩
    unfold buyUpStep
    rw [if_pos hg]
    dsimp only
    rw [if_neg (not_lt.mpr (hlohi.trans hgt.le)), if_neg ?hnB]
    case hnB =>
      rintro ⟨_, hle⟩
      exact absurd hle (not_le.mpr hgt)

/-- Invariant of the smaller run over the prefix before the merge break `C`:
non-negative best total, order quantity at most `C.qty`, and whenever the
order quantity has reached `C.qty`, the best total is at most the total at
`C`. -/
theorem fold_K_inv (t : Rat) (base1 : Int) (C : PB) :
    ∀ (P : List PB) (s : ScanSt),
      (∀ pb ∈ P, 0 < pb.qty ∧ 0 ≤ pb.price) →
      (∀ pb ∈ P, pb.qty ≤ C.qty) →
      (∀ pb ∈ P, pb.qty = C.qty → pb = C) →
      0 ≤ s.best → s.actual ≤ C.qty →
      (s.actual = C.qty → s.best ≤ (C.qty : Rat) * C.price) →
      (0 ≤ (P.foldl (buyUpStep base1 t) s).best ∧
        (P.foldl (buyUpStep base1 t) s).actual ≤ C.qty ∧
        ((P.foldl (buyUpStep base1 t) s).actual = C.qty →
          (P.foldl (buyUpStep base1 t) s).best ≤ (C.qty : Rat) * C.price)) := by
  intro P
  induction P with
  | nil => intro s _ _ _ h0 ha hcond; exact ⟨h0, ha, hcond⟩
  | cons pb rest ih =>
    intro s hpos hle hinj h0 ha hcond
    rw [List.foldl_cons]
    have hpb := hpos pb (List.mem_cons_self _ _)
    have hq0 : (0 : Rat) ≤ (pb.qty : Rat) := by exact_mod_cast hpb.1.le
    refine ih _ (fun x hx => hpos x (List.mem_cons_of_mem _ hx))
      (fun x hx => hle x (List.mem_cons_of_mem _ hx))
      (fun x hx => hinj x (List.mem_cons_of_mem _ hx)) ?_ ?_ ?_ <;>
      rcases buyUpStep_cases base1 t s pb with ⟨hbe, hac⟩ | ⟨hbe, hac⟩
    · rw [hbe]; exact h0
    · rw [hbe]; exact mul_nonneg hq0 hpb.2
    · rw [hac]; exact ha
    · rw [hac]; exact hle pb (List.mem_cons_self _ _)
    · rw [hac, hbe]; exact hcond
    · rw [hac, hbe]
      intro hqeq
      have hpbC : pb = C := hinj pb (List.mem_cons_self _ _) hqeq
      rw [hpbC]

/-- After folding the whole prefix `P` (ending in the merge break `C`), the
smaller run has best total at most the larger base total `b2 * C.price` and
order quantity at most `b2`. -/
theorem prefix_fold_bound {t : Rat} (ht : 0 ≤ t) {base1 b2 : Int} {C : PB}
    {P : List PB}
    (hpos : ∀ pb ∈ P, 0 < pb.qty ∧ 0 ≤ pb.price)
    (hle : ∀ pb ∈ P, pb.qty ≤ C.qty)
    (hinj : ∀ pb ∈ P, pb.qty = C.qty → pb = C)
    (hCb2 : C.qty ≤ b2) (hCp : 0 ≤ C.price) (hCq : 0 < C.qty)
    (hClast : C ∈ P.getLast?)
    (s0 : ScanSt) (h00 : 0 ≤ s0.best) (h0a : s0.actual ≤ C.qty)
    (h0cond : s0.actual = C.qty → s0.best ≤ (C.qty : Rat) * C.price)
    (hbase1 : base1 ≤ C.qty) :
    0 ≤ (P.foldl (buyUpStep base1 t) s0).best ∧
    (P.foldl (buyUpStep base1 t) s0).best ≤ (b2 : Rat) * C.price ∧
    (P.foldl (buyUpStep base1 t) s0).actual ≤ b2 := by
  have hCb2R : ((C.qty : Rat)) * C.price ≤ (b2 : Rat) * C.price := by
    apply mul_le_mul_of_nonneg_right _ hCp
    exact_mod_cast hCb2
  have hsplit : P.dropLast ++ [C] = P := List.dropLast_append_getLast? C hClast
  have hsub : List.Sublist P.dropLast P := List.dropLast_sublist P
  have hK := fold_K_inv t base1 C P.dropLast s0
    (fun x hx => hpos x (hsub.mem hx)) (fun x hx => hle x (hsub.mem hx))
    (fun x hx => hinj x (hsub.mem hx)) h00 h0a h0cond
  rw [← hsplit, List.foldl_append]
  set s1 := P.dropLast.foldl (buyUpStep base1 t) s0 with hs1
  obtain ⟨k0, ka, kcond⟩ := hK
  have hCtc : (0 : Rat) ≤ (C.qty : Rat) * C.price :=
    mul_nonneg (by exact_mod_cast hCq.le) hCp
  show 0 ≤ (buyUpStep base1 t s1 C).best ∧
    (buyUpStep base1 t s1 C).best ≤ (b2 : Rat) * C.price ∧
    (buyUpStep base1 t s1 C).actual ≤ b2
  rcases eq_or_lt_of_le ka with heq | hlt
  · rcases buyUpStep_cases base1 t s1 C with ⟨hbe, hac⟩ | ⟨hbe, hac⟩
    · exact ⟨hbe ▸ k0, hbe ▸ ((kcond heq).trans hCb2R), hac ▸ (heq ▸ hCb2)⟩
    · exact ⟨hbe ▸ hCtc, hbe ▸ hCb2R, hac ▸ hCb2⟩
  · rcases buyUpStep_spec (le_trans hbase1 (le_refl C.qty)) hlt k0 ht with
      ⟨_, hbe, hac⟩ | ⟨hgt, heqs⟩
    · exact ⟨hbe ▸ hCtc, hbe ▸ hCb2R, hac ▸ hCb2⟩
    · rw [heqs]
      have hdiv : (0 : Rat) ≤ t / 100 := by positivity
      have : s1.best ≤ s1.best * (1 + t / 100) :=
        le_mul_of_one_le_right k0 (by linarith)
      exact ⟨k0, by linarith, le_trans hlt.le hCb2⟩

/-- The larger run is inert on the prefix: every break of `P` has quantity
at most `b2`, and a break at exactly `b2` has the same total as the initial
base total, so no rule fires. -/
theorem prefix_fold_id {t : Rat} (ht : 0 ≤ t) {b2 : Int} {C : PB}
    (hCp : 0 ≤ C.price) (hb2 : 0 ≤ (b2 : Rat)) :
    ∀ (P : List PB), (∀ pb ∈ P, pb.qty ≤ b2) →
      (∀ pb ∈ P, pb.qty = b2 → (pb.qty : Rat) * pb.price = (b2 : Rat) * C.price) →
      P.foldl (buyUpStep b2 t) ⟨(b2 : Rat) * C.price, C.price, b2, ""⟩ =
        ⟨(b2 : Rat) * C.price, C.price, b2, ""⟩ := by
  intro P
  induction P with
  | nil => intro _ _; rfl
  | cons pb rest ih =>
    intro hle htc
    rw [List.foldl_cons]
    have hstep : buyUpStep b2 t ⟨(b2 : Rat) * C.price, C.price, b2, ""⟩ pb =
        ⟨(b2 : Rat) * C.price, C.price, b2, ""⟩ := by
      rcases lt_or_eq_of_le (hle pb (List.mem_cons_self _ _)) with hlt | heq
      · exact buyUpStep_id_of_lt hlt
      · refine buyUpStep_id_high_actual ?_ ht (mul_nonneg hb2 hCp) ?_
        · exact le_of_eq heq
        · rw [htc pb (List.mem_cons_self _ _) heq]
    rw [hstep]
    exact ih (fun x hx => hle x (List.mem_cons_of_mem _ hx))
      (fun x hx => htc x (List.mem_cons_of_mem _ hx))

/-- Monotone simultaneous scan over the suffix past the merge point. -/
theorem fold_mono_suffix {t : Rat} (ht : 0 ≤ t) {b1 b2 : Int} :
    ∀ (L : List PB) (s1 s2 : ScanSt),
      L.Pairwise (fun a b => a.qty < b.qty) →
      (∀ pb ∈ L, 0 < pb.qty ∧ 0 ≤ pb.price) →
      (∀ pb ∈ L, b1 ≤ pb.qty) → (∀ pb ∈ L, b2 ≤ pb.qty) →
      (∀ pb ∈ L, s1.actual < pb.qty) → (∀ pb ∈ L, s2.actual < pb.qty) →
      0 ≤ s1.best → s1.best ≤ s2.best → s1.actual ≤ s2.actual →
      (L.foldl (buyUpStep b1 t) s1).actual ≤ (L.foldl (buyUpStep b2 t) s2).actual := by
  intro L
  induction L with
  | nil => intro s1 s2 _ _ _ _ _ _ _ _ ha; exact ha
  | cons pb rest ih =>
    intro s1 s2 hpw hpos hg1 hg2 ha1 ha2 h0 hb ha
    rw [List.foldl_cons, List.foldl_cons]
    obtain ⟨hhead, htail⟩ := List.pairwise_cons.mp hpw
    have hpbm := List.mem_cons_self pb rest
    have hpb := hpos pb hpbm
    have htc0 : (0 : Rat) ≤ (pb.qty : Rat) * pb.price :=
      mul_nonneg (by exact_mod_cast hpb.1.le) hpb.2
    have hdiv : (0 : Rat) ≤ t / 100 := by positivity
    have h20 : 0 ≤ s2.best := h0.trans hb
    have hnext1 : ∀ x ∈ rest, (buyUpStep b1 t s1 pb).actual < x.qty := by
      intro x hx
      rcases buyUpStep_cases b1 t s1 pb with ⟨_, hac⟩ | ⟨_, hac⟩
      · rw [hac]; exact lt_trans (ha1 pb hpbm) (hhead x hx)
      · rw [hac]; exact hhead x hx
    have hnext2 : ∀ x ∈ rest, (buyUpStep b2 t s2 pb).actual < x.qty := by
      intro x hx
      rcases buyUpStep_cases b2 t s2 pb with ⟨_, hac⟩ | ⟨_, hac⟩
      · rw [hac]; exact lt_trans (ha2 pb hpbm) (hhead x hx)
      · rw [hac]; exact hhead x hx
    have hbmul : s1.best * (1 + t / 100) ≤ s2.best * (1 + t / 100) :=
      mul_le_mul_of_nonneg_right hb (by linarith)
    rcases buyUpStep_spec (hg1 pb hpbm) (ha1 pb hpbm) h0 ht with
      ⟨hc1, hbe1, hac1⟩ | ⟨hc1, heq1⟩ <;>
      rcases buyUpStep_spec (hg2 pb hpbm) (ha2 pb hpbm) h20 ht with
        ⟨hc2, hbe2, hac2⟩ | ⟨hc2, heq2⟩
    · exact ih _ _ htail (fun x hx => hpos x (List.mem_cons_of_mem _ hx))
        (fun x hx => hg1 x (List.mem_cons_of_mem _ hx))
        (fun x hx => hg2 x (List.mem_cons_of_mem _ hx))
        hnext1 hnext2 (hbe1 ▸ htc0) (by rw [hbe1, hbe2]) (by rw [hac1, hac2])
    · exact absurd hc1 (not_le.mpr (lt_of_le_of_lt hbmul hc2))
    · rw [heq1]
      refine ih _ _ htail (fun x hx => hpos x (List.mem_cons_of_mem _ hx))
        (fun x hx => hg1 x (List.mem_cons_of_mem _ hx))
        (fun x hx => hg2 x (List.mem_cons_of_mem _ hx))
        (fun x hx => lt_trans (ha1 pb hpbm) (hhead x hx)) hnext2 h0 ?_ ?_
      · rw [hbe2]
        have : s1.best ≤ s1.best * (1 + t / 100) :=
          le_mul_of_one_le_right h0 (by linarith)
        linarith
      · rw [hac2]
        exact (ha1 pb hpbm).le
    · rw [heq1, heq2]
      exact ih _ _ htail (fun x hx => hpos x (List.mem_cons_of_mem _ hx))
        (fun x hx => hg1 x (List.mem_cons_of_mem _ hx))
        (fun x hx => hg2 x (List.mem_cons_of_mem _ hx))
        (fun x hx => lt_trans (ha1 pb hpbm) (hhead x hx))
        (fun x hx => lt_trans (ha2 pb hpbm) (hhead x hx)) h0 hb ha

theorem validatePB_mem {l : List RawBreak} {pb : PB} (h : pb ∈ validatePB l) :
    0 < pb.qty ∧ 0 ≤ pb.price := by
  unfold validatePB at h
  obtain ⟨a, _, ha⟩ := List.mem_filterMap.mp h
  cases hp : a.price with
  | none =>
    simp only [hp] at ha
    exact absurd ha (by simp)
  | some p =>
    simp only [hp] at ha
    by_cases hc : 0 < a.qty ∧ 0 ≤ p
    · rw [if_pos hc] at ha
      have hpb : pb = ⟨a.qty, p⟩ := (Option.some_inj.mp ha).symm
      rw [hpb]
      exact hc
    · rw [if_neg hc] at ha
      exact absurd ha (by simp)

/-- Monotonicity of the scan result in the base order quantity, on a sorted
break list with strictly increasing quantities. -/
theorem gocScan_actual_mono {t : Rat} (ht : 0 ≤ t) {first : PB} {rest : List PB}
    (hlt : (first :: rest).Pairwise (fun a b => a.qty < b.qty))
    (hpos : ∀ pb ∈ first :: rest, 0 < pb.qty ∧ 0 ≤ pb.price)
    {b1 b2 : Int} (hb : b1 ≤ b2) (hb1 : 1 ≤ b1) :
    (gocScan b1 t first (first :: rest)).actual ≤
      (gocScan b2 t first (first :: rest)).actual := by
  cases hC2 : lastLE b2 (first :: rest) with
  | none =>
    have h2f : b2 < first.qty := lastLE_cons_eq_none_iff.mp hC2
    have hC1 : lastLE b1 (first :: rest) = none :=
      lastLE_cons_eq_none_iff.mpr (by omega)
    unfold gocScan
    rw [hC1, hC2]
    dsimp only
    have hmax : max b1 first.qty = max b2 first.qty := by omega
    rw [hmax]
  | some C =>
    obtain ⟨hCmem, hCb2⟩ := lastLE_some_spec hC2
    have hCq := (hpos C hCmem).1
    have hCp := (hpos C hCmem).2
    have hb2R : (0 : Rat) ≤ (b2 : Rat) := by
      have : (0 : Int) ≤ b2 := by omega
      exact_mod_cast this
    have hPL : (first :: rest).takeWhile (fun x => decide (x.qty ≤ b2)) ++
        (first :: rest).dropWhile (fun x => decide (x.qty ≤ b2)) = first :: rest :=
      List.takeWhile_append_dropWhile _ _
    have hPlast : C ∈ ((first :: rest).takeWhile (fun x => decide (x.qty ≤ b2))).getLast? := by
      rw [← lastLE_eq_getLast_takeWhile, hC2]
      exact Option.mem_def.mpr rfl
    have hPsub : List.Sublist ((first :: rest).takeWhile (fun x => decide (x.qty ≤ b2)))
        (first :: rest) := List.takeWhile_sublist _
    have hLsub : List.Sublist ((first :: rest).dropWhile (fun x => decide (x.qty ≤ b2)))
        (first :: rest) := List.dropWhile_sublist _
    have hPpw := hlt.sublist hPsub
    have hLpw := hlt.sublist hLsub
    have hPpos : ∀ pb ∈ (first :: rest).takeWhile (fun x => decide (x.qty ≤ b2)),
        0 < pb.qty ∧ 0 ≤ pb.price := fun pb h => hpos pb (hPsub.subset h)
    have hLpos : ∀ pb ∈ (first :: rest).dropWhile (fun x => decide (x.qty ≤ b2)),
        0 < pb.qty ∧ 0 ≤ pb.price := fun pb h => hpos pb (hLsub.subset h)
    have hPle : ∀ pb ∈ (first :: rest).takeWhile (fun x => decide (x.qty ≤ b2)),
        pb.qty ≤ C.qty := pairwise_lt_le_getLast hPpw hPlast
    have hPb2 : ∀ pb ∈ (first :: rest).takeWhile (fun x => decide (x.qty ≤ b2)),
        pb.qty ≤ b2 := fun pb h => by simpa using List.mem_takeWhile_imp h
    have hPinj : ∀ pb ∈ (first :: rest).takeWhile (fun x => decide (x.qty ≤ b2)),
        pb.qty = C.qty → pb = C := fun pb h heq =>
      pairwise_lt_qty_inj hlt (hPsub.subset h) hCmem heq
    have hLgt : ∀ pb ∈ (first :: rest).dropWhile (fun x => decide (x.qty ≤ b2)),
        b2 < pb.qty := mem_dropWhile_gt hlt
    have hLg1 : ∀ pb ∈ (first :: rest).dropWhile (fun x => decide (x.qty ≤ b2)),
        b1 ≤ pb.qty := fun pb h => by have := hLgt pb h; omega
    have hLg2 : ∀ pb ∈ (first :: rest).dropWhile (fun x => decide (x.qty ≤ b2)),
        b2 ≤ pb.qty := fun pb h => (hLgt pb h).le
    have hinit2 : ((first :: rest).takeWhile (fun x => decide (x.qty ≤ b2))).foldl
        (buyUpStep b2 t) ⟨(b2 : Rat) * C.price, C.price, b2, ""⟩ =
        ⟨(b2 : Rat) * C.price, C.price, b2, ""⟩ := by
      refine prefix_fold_id ht hCp hb2R _ hPb2 ?_
      intro pb h heq
      have h1 : pb.qty = C.qty := le_antisymm (hPle pb h) (heq ▸ hCb2)
      have h2 : pb = C := hPinj pb h h1
      rw [h2, ← h1, heq]
    cases hC1 : lastLE b1 (first :: rest) with
    | some A =>
      obtain ⟨hAmem, hAb1⟩ := lastLE_some_spec hC1
      have hApos := hpos A hAmem
      have hb1R : (0 : Rat) ≤ (b1 : Rat) := by
        have : (0 : Int) ≤ b1 := by omega
        exact_mod_cast this
      unfold gocScan
      rw [hC1, hC2]
      dsimp only
      rw [← hPL, List.foldl_append, List.foldl_append, hinit2]
      by_cases hbc : C.qty < b1
      · have hA2 : lastLE b1 (first :: rest) = some C := lastLE_between hlt hC2 hbc.le hb
        have hAC : A = C := by
          rw [hC1] at hA2
          exact Option.some_inj.mp hA2
        rw [foldl_buyUpStep_skip (fun pb h => lt_of_le_of_lt (hPle pb h) hbc)]
        refine fold_mono_suffix ht _ _ _ hLpw hLpos hLg1 hLg2 ?_ ?_ ?_ ?_ ?_
        · intro pb h
          have := hLgt pb h
          show b1 < pb.qty
          omega
        · intro pb h
          exact hLgt pb h
        · exact mul_nonneg hb1R hApos.2
        · show (b1 : Rat) * A.price ≤ (b2 : Rat) * C.price
          rw [hAC]
          apply mul_le_mul_of_nonneg_right _ hCp
          exact_mod_cast hb
        · exact hb
      · push_neg at hbc
        have hcond1 : b1 = C.qty → (b1 : Rat) * A.price ≤ (C.qty : Rat) * C.price := by
          intro heq
          have hA2 : lastLE b1 (first :: rest) = some C :=
            lastLE_between hlt hC2 heq.ge hb
          rw [hC1] at hA2
          have hAC : A = C := Option.some_inj.mp hA2
          rw [hAC, heq]
        have hpfb := prefix_fold_bound ht hPpos hPle hPinj hCb2 hCp hCq hPlast
          ⟨(b1 : Rat) * A.price, A.price, b1, ""⟩
          (mul_nonneg hb1R hApos.2) hbc hcond1 hbc
        obtain ⟨p0, pbb, paa⟩ := hpfb
        refine fold_mono_suffix ht _ _ _ hLpw hLpos hLg1 hLg2 ?_ ?_ p0 pbb paa
        · intro pb h
          have := hLgt pb h
          omega
        · intro pb h
          exact hLgt pb h
    | none =>
      have hf1 : b1 < first.qty := lastLE_cons_eq_none_iff.mp hC1
      have hfirstpos := hpos first (List.mem_cons_self _ _)
      have hfC : first.qty ≤ C.qty := by
        rcases List.mem_cons.mp hCmem with rfl | hC'
        · exact le_refl _
        · exact ((List.pairwise_cons.mp hlt).1 C hC').le
      have hfq0 : (0 : Rat) ≤ (first.qty : Rat) := by exact_mod_cast hfirstpos.1.le
      unfold gocScan
      rw [hC1, hC2]
      dsimp only
      have hmax : max b1 first.qty = first.qty := max_eq_right hf1.le
      rw [hmax]
      rw [← hPL, List.foldl_append, List.foldl_append, hinit2]
      have hcond1 : first.qty = C.qty →
          (first.qty : Rat) * first.price ≤ (C.qty : Rat) * C.price := by
        intro heq
        have hfCeq : first = C :=
          pairwise_lt_qty_inj hlt (List.mem_cons_self _ _) hCmem heq
        rw [hfCeq]
      have hpfb := prefix_fold_bound ht hPpos hPle hPinj hCb2 hCp hCq hPlast
        ⟨(first.qty : Rat) * first.price, first.price, first.qty,
          "MOQ adjusted to first break (" ++ toString first.qty ++ "). "⟩
        (mul_nonneg hfq0 hfirstpos.2) hfC hcond1 hfC
      obtain ⟨p0, pbb, paa⟩ := hpfb
      refine fold_mono_suffix ht _ _ _ hLpw hLpos ?_ hLg2 ?_ ?_ p0 pbb paa
      · intro pb h
        have h1 := hLgt pb h
        have : first.qty ≤ b2 := hfC.trans hCb2
        omega
      · intro pb h
        have h1 := hLgt pb h
        have h2 : first.qty ≤ b2 := hfC.trans hCb2
        omega
      · intro pb h
        exact hLgt pb h

/-- C6, amended.  Increasing demand never decreases the chosen order
quantity, provided the validated price-break table has pairwise-distinct
quantities and the buy-up threshold is non-negative (its configured domain).
With duplicate quantities the property fails (see the counterexample). -/
theorem cost_order_qty_monotone (q1 q2 : Rat) (l : List RawBreak) (m t : Rat)
    (hq1 : 0 < q1) (h12 : q1 ≤ q2) (ht : 0 ≤ t)
    (hdist : (validatePB l).Pairwise (fun a b => a.qty ≠ b.qty)) :
    (get_optimal_cost q1 l m t).orderQty ≤ (get_optimal_cost q2 l m t).orderQty := by
  have hq2 : 0 < q2 := lt_of_lt_of_le hq1 h12
  unfold get_optimal_cost
  rw [if_neg (not_le.mpr hq1), if_neg (not_le.mpr hq2)]
  have hperm : List.Perm (sortPB (validatePB l)) (validatePB l) :=
    List.perm_insertionSort pbLe _
  have hsorted : (sortPB (validatePB l)).Pairwise pbLe :=
    List.sorted_insertionSort pbLe _
  have hdistS : (sortPB (validatePB l)).Pairwise (fun a b => a.qty ≠ b.qty) :=
    (hperm.pairwise_iff (fun h => h.symm)).mpr hdist
  have hltS : (sortPB (validatePB l)).Pairwise (fun a b => a.qty < b.qty) :=
    (hsorted.and hdistS).imp (fun h => lt_of_le_of_ne h.1 h.2)
  have hposS : ∀ pb ∈ sortPB (validatePB l), 0 < pb.qty ∧ 0 ≤ pb.price := by
    intro pb hpb
    exact validatePB_mem (hperm.mem_iff.mp hpb)
  cases hs : sortPB (validatePB l) with
  | nil => exact h12
  | cons first rest =>
    rw [hs] at hltS hposS
    dsimp only
    have hbase : max (pyInt q1) (max 1 (pyInt m)) ≤ max (pyInt q2) (max 1 (pyInt m)) :=
      max_le_max (pyInt_mono h12) (le_refl _)
    have hb1 : 1 ≤ max (pyInt q1) (max 1 (pyInt m)) :=
      le_trans (le_max_left 1 (pyInt m)) (le_max_right _ _)
    exact_mod_cast gocScan_actual_mono ht hltS hposS hbase hb1

/-- C6, witness: monotonicity applied at demands 1 ≤ 2 on a one-break table. -/
theorem cost_order_qty_monotone_witness :
    (0 : Rat) < 1 ∧ (1 : Rat) ≤ 2 ∧ (0 : Rat) ≤ 1 ∧
    (validatePB [⟨1, some 10⟩]).Pairwise (fun a b => a.qty ≠ b.qty) ∧
    (get_optimal_cost 1 [⟨1, some 10⟩] 1 1).orderQty ≤
      (get_optimal_cost 2 [⟨1, some 10⟩] 1 1).orderQty :=
  ⟨by norm_num, by norm_num, by norm_num, by with_unfolding_all decide,
    cost_order_qty_monotone 1 2 [⟨1, some 10⟩] 1 1 (by norm_num) (by norm_num)
      (by norm_num) (by with_unfolding_all decide)⟩

end BOM
